import Mathlib

/-!
Verification of the zero-run-length bound validation engine
(`validate_theorem.py`).  The Python source is shallowly embedded:

* `get_binary_expansion` — the multiply-and-extract loop over the
  fractional part, with the arbitrary-precision arithmetic modelled by
  exact real arithmetic;
* `find_zero_runs` — the single forward scan collecting maximal zero
  runs as `(start_position, length)` pairs;
* `validate_number` — the per-test-case orchestration: filtering runs
  with `position < 1`, bound/ratio computation (`float('inf')` is
  modelled by `⊤ : EReal`), violation classification, `max_ratio`
  folding, and the statistics block (`statistics.stdev` raising
  `StatisticsError` on fewer than two data points is modelled by
  `Option`);
* `create_report` — the JSON record construction, modelled by a small
  JSON value type.
-/

namespace ZeroRunBound

/-! ### Binary expansion (`get_binary_expansion`, source lines 22–37) -/

/-- Loop body of `get_binary_expansion`: repeatedly double the
fractional part, extract `bit = floor(frac)`, append it and subtract it.
The `mpmath` arbitrary-precision arithmetic is modelled by exact real
arithmetic. -/
noncomputable def expansion_steps : ℝ → ℕ → List ℤ
  | _, 0 => []
  | f, n + 1 =>
      ⌊f * 2⌋ :: expansion_steps (f * 2 - (⌊f * 2⌋ : ℝ)) n

/-- Model of `NumberValidator.get_binary_expansion`: binary expansion of
the fractional part `num - floor(num)`, always of the requested
length. -/
noncomputable def get_binary_expansion (num : ℝ) (length : ℕ) : List ℤ :=
  expansion_steps (num - (⌊num⌋ : ℝ)) length

/-! ### Zero-run finder (`find_zero_runs`, source lines 39–62) -/

/-- State-passing form of the scan in `find_zero_runs`: `i` is the
current index, `startPos` the open run's start (`None` when no run is
open), `currentRun` the open run's length so far. -/
def find_zero_runs_go : List ℤ → ℕ → Option ℕ → ℕ → List (ℕ × ℕ)
  | [], _, startPos, currentRun =>
      if 0 < currentRun then [(startPos.getD 0, currentRun)] else []
  | bit :: rest, i, startPos, currentRun =>
      if bit = 0 then
        find_zero_runs_go rest (i + 1) (some (startPos.getD i)) (currentRun + 1)
      else if 0 < currentRun then
        (startPos.getD 0, currentRun) :: find_zero_runs_go rest (i + 1) none 0
      else
        find_zero_runs_go rest (i + 1) none 0

/-- Model of `NumberValidator.find_zero_runs`: all maximal zero runs of
a binary sequence as `(starting_position, length)` pairs. -/
def find_zero_runs (binary : List ℤ) : List (ℕ × ℕ) :=
  find_zero_runs_go binary 0 none 0

/-- Length of the leading all-zero block of a sequence. -/
def zeros_len (l : List ℤ) : ℕ := (l.takeWhile (fun b => b == 0)).length

/-- Structural characterisation of the scan: emit the leading zero
block (if the head is zero), skip the following one-bit, recurse. -/
def runsSpec (l : List ℤ) (i : ℕ) : List (ℕ × ℕ) :=
  match l with
  | [] => []
  | b :: rest =>
      if b = 0 then
        (i, zeros_len rest + 1) ::
          runsSpec (rest.drop (zeros_len rest + 1)) (i + zeros_len rest + 2)
      else runsSpec rest (i + 1)
termination_by l.length
decreasing_by
  · simp only [List.length_drop, List.length_cons]
    omega
  · simp only [List.length_cons]
    omega

lemma zeros_len_le (l : List ℤ) : zeros_len l ≤ l.length :=
  (List.takeWhile_sublist _).length_le

lemma zeros_len_cons_zero (rest : List ℤ) :
    zeros_len ((0 : ℤ) :: rest) = zeros_len rest + 1 := by
  simp [zeros_len, List.takeWhile_cons]

lemma zeros_len_cons_ne {b : ℤ} (hb : b ≠ 0) (rest : List ℤ) :
    zeros_len (b :: rest) = 0 := by
  simp [zeros_len, List.takeWhile_cons, hb]

/-- The bit just after the leading zero block is not zero (when it
exists). -/
lemma getElem?_zeros_len (l : List ℤ) : l[zeros_len l]? ≠ some 0 := by
  induction l with
  | nil => simp [zeros_len]
  | cons b rest ih =>
      by_cases hb : b = 0
      · subst hb
        rw [zeros_len_cons_zero]
        simpa using ih
      · rw [zeros_len_cons_ne hb]
        simp [hb]

/-- Splitting the zero count of a list at its leading zero block and
the one-bit after it. -/
lemma count_zero_split (l : List ℤ) :
    l.count 0 = zeros_len l + (l.drop (zeros_len l + 1)).count 0 := by
  induction l with
  | nil => simp [zeros_len]
  | cons b rest ih =>
      by_cases hb : b = 0
      · subst hb
        rw [zeros_len_cons_zero]
        simp only [List.count_cons, List.drop_succ_cons, beq_self_eq_true, if_true]
        omega
      · rw [zeros_len_cons_ne hb]
        simp [List.count_cons, hb]

/-- With an open run of length `c` (covering positions up to `i`), the
scan emits that run extended by the next zero block, then continues
fresh past the separating one-bit. -/
lemma find_zero_runs_go_open (l : List ℤ) (s : ℕ) :
    ∀ (i c : ℕ), 0 < c →
      find_zero_runs_go l i (some s) c =
        (s, c + zeros_len l) ::
          find_zero_runs_go (l.drop (zeros_len l + 1)) (i + zeros_len l + 1) none 0 := by
  induction l with
  | nil =>
      intro i c hc
      simp [find_zero_runs_go, zeros_len, hc]
  | cons b rest ih =>
      intro i c hc
      by_cases hb : b = 0
      · subst hb
        rw [zeros_len_cons_zero]
        show find_zero_runs_go ((0 : ℤ) :: rest) i (some s) c = _
        rw [find_zero_runs_go]
        simp only [if_pos rfl, Option.getD_some]
        rw [ih (i + 1) (c + 1) (Nat.succ_pos c)]
        simp only [List.drop_succ_cons]
        have h1 : c + 1 + zeros_len rest = c + (zeros_len rest + 1) := by omega
        have h2 : i + 1 + zeros_len rest + 1 = i + (zeros_len rest + 1) + 1 := by omega
        rw [h1, h2]
        simp
      · rw [zeros_len_cons_ne hb]
        rw [find_zero_runs_go]
        simp [hb, hc]

/-- Starting fresh, the scan computes exactly `runsSpec`. -/
lemma find_zero_runs_go_fresh :
    ∀ (n : ℕ) (l : List ℤ), l.length ≤ n → ∀ i,
      find_zero_runs_go l i none 0 = runsSpec l i := by
  intro n
  induction n with
  | zero =>
      intro l hl i
      rw [List.length_eq_zero.mp (Nat.le_zero.mp hl)]
      simp [find_zero_runs_go, runsSpec]
  | succ n ih =>
      intro l hl i
      match l with
      | [] => simp [find_zero_runs_go, runsSpec]
      | b :: rest =>
          by_cases hb : b = 0
          · subst hb
            rw [find_zero_runs_go]
            simp only [if_pos rfl, Option.getD_none]
            rw [find_zero_runs_go_open rest i (i + 1) 1 Nat.one_pos]
            rw [runsSpec]
            simp only [if_pos rfl]
            have hlen : (rest.drop (zeros_len rest + 1)).length ≤ n := by
              have h3 := List.length_drop (zeros_len rest + 1) rest
              simp only [List.length_cons] at hl
              omega
            rw [ih _ hlen]
            have h1 : 1 + zeros_len rest = zeros_len rest + 1 := by omega
            have h2 : i + 1 + zeros_len rest + 1 = i + zeros_len rest + 2 := by omega
            rw [h1, h2]
            simp
          · rw [find_zero_runs_go]
            simp only [if_neg hb, if_neg (lt_irrefl 0)]
            rw [runsSpec, if_neg hb]
            refine ih rest ?_ (i + 1)
            simp only [List.length_cons] at hl
            omega

lemma find_zero_runs_eq_runsSpec (binary : List ℤ) :
    find_zero_runs binary = runsSpec binary 0 :=
  find_zero_runs_go_fresh binary.length binary le_rfl 0

/-- Invariants of the characterised scan: bounds, positive lengths,
separation, zero-count exhaustiveness, and maximality at both ends. -/
lemma runsSpec_props :
    ∀ (n : ℕ) (l : List ℤ), l.length ≤ n → ∀ i,
      (∀ r ∈ runsSpec l i, i ≤ r.1 ∧ 1 ≤ r.2 ∧ r.1 + r.2 ≤ i + l.length) ∧
      List.Pairwise (fun a b : ℕ × ℕ => a.1 + a.2 < b.1) (runsSpec l i) ∧
      ((runsSpec l i).map Prod.snd).sum = l.count 0 ∧
      (∀ r ∈ runsSpec l i, r.1 = i ∨ l[r.1 - i - 1]? ≠ some 0) ∧
      (∀ r ∈ runsSpec l i, r.1 + r.2 = i + l.length ∨ l[r.1 + r.2 - i]? ≠ some 0) := by
  intro n
  induction n with
  | zero =>
      intro l hl i
      rw [List.length_eq_zero.mp (Nat.le_zero.mp hl)]
      simp [runsSpec]
  | succ n ih =>
      intro l hl i
      match l with
      | [] => simp [runsSpec]
      | b :: rest =>
          simp only [List.length_cons] at hl
          by_cases hb : b = 0
          · subst hb
            have hz_le : zeros_len rest ≤ rest.length := zeros_len_le rest
            have hdl := List.length_drop (zeros_len rest + 1) rest
            obtain ⟨Q1, Q2, Q3, Q4, Q5⟩ :=
              ih (rest.drop (zeros_len rest + 1)) (by omega) (i + zeros_len rest + 2)
            rw [runsSpec, if_pos rfl]
            refine ⟨?_, ?_, ?_, ?_, ?_⟩
            · intro r hr
              rcases List.mem_cons.mp hr with h | h
              · subst h
                simp only [List.length_cons]
                omega
              · have hq := Q1 r h
                rw [hdl] at hq
                simp only [List.length_cons]
                omega
            · refine List.pairwise_cons.mpr ⟨?_, Q2⟩
              intro r hr
              have hq := Q1 r hr
              omega
            · simp only [List.map_cons, List.sum_cons]
              rw [Q3]
              have hsplit := count_zero_split ((0 : ℤ) :: rest)
              rw [zeros_len_cons_zero] at hsplit
              simp only [List.drop_succ_cons] at hsplit
              omega
            · intro r hr
              rcases List.mem_cons.mp hr with h | h
              · subst h
                left
                rfl
              · right
                have hq := Q1 r h
                by_cases hri : r.1 = i + zeros_len rest + 2
                · have h0 : r.1 - i - 1 = zeros_len rest + 1 := by omega
                  rw [h0, List.getElem?_cons_succ]
                  exact getElem?_zeros_len rest
                · rcases Q4 r h with h4 | h4
                  · exact absurd h4 hri
                  · have h0 : r.1 - i - 1 = (r.1 - i - 2) + 1 := by omega
                    rw [h0, List.getElem?_cons_succ]
                    rw [List.getElem?_drop] at h4
                    have h1 : zeros_len rest + 1 + (r.1 - (i + zeros_len rest + 2) - 1) =
                        r.1 - i - 2 := by omega
                    rwa [h1] at h4
            · intro r hr
              rcases List.mem_cons.mp hr with h | h
              · subst h
                simp only [List.length_cons]
                by_cases hze : zeros_len rest = rest.length
                · left
                  omega
                · right
                  have h0 : i + (zeros_len rest + 1) - i = zeros_len rest + 1 := by omega
                  rw [h0, List.getElem?_cons_succ]
                  exact getElem?_zeros_len rest
              · have hq := Q1 r h
                rw [hdl] at hq
                simp only [List.length_cons]
                rcases Q5 r h with h5 | h5
                · left
                  rw [hdl] at h5
                  omega
                · right
                  have h0 : r.1 + r.2 - i = (r.1 + r.2 - i - 1) + 1 := by omega
                  rw [h0, List.getElem?_cons_succ]
                  rw [List.getElem?_drop] at h5
                  have h1 : zeros_len rest + 1 + (r.1 + r.2 - (i + zeros_len rest + 2)) =
                      r.1 + r.2 - i - 1 := by omega
                  rwa [h1] at h5
          · obtain ⟨P1, P2, P3, P4, P5⟩ := ih rest (by omega) (i + 1)
            rw [runsSpec, if_neg hb]
            refine ⟨?_, P2, ?_, ?_, ?_⟩
            · intro r hr
              have hp := P1 r hr
              simp only [List.length_cons]
              omega
            · rw [P3]
              simp [List.count_cons, hb]
            · intro r hr
              right
              by_cases hri : r.1 = i + 1
              · have h0 : r.1 - i - 1 = 0 := by omega
                rw [h0]
                simp [hb]
              · have hp := P1 r hr
                rcases P4 r hr with h4 | h4
                · exact absurd h4 hri
                · have h0 : r.1 - i - 1 = (r.1 - i - 2) + 1 := by omega
                  rw [h0, List.getElem?_cons_succ]
                  have h1 : r.1 - (i + 1) - 1 = r.1 - i - 2 := by omega
                  rwa [h1] at h4
            · intro r hr
              have hp := P1 r hr
              rcases P5 r hr with h5 | h5
              · left
                simp only [List.length_cons]
                omega
              · right
                have h0 : r.1 + r.2 - i = (r.1 + r.2 - i - 1) + 1 := by omega
                rw [h0, List.getElem?_cons_succ]
                have h1 : r.1 + r.2 - (i + 1) = r.1 + r.2 - i - 1 := by omega
                rwa [h1] at h5

lemma expansion_steps_length : ∀ (n : ℕ) (f : ℝ), (expansion_steps f n).length = n := by
  intro n
  induction n with
  | zero => intro f; rfl
  | succ n ih => intro f; simp [expansion_steps, ih]

lemma expansion_steps_mem :
    ∀ (n : ℕ) (f : ℝ), 0 ≤ f → f < 1 → ∀ b ∈ expansion_steps f n, b = 0 ∨ b = 1 := by
  intro n
  induction n with
  | zero => intro f _ _ b hb; simp [expansion_steps] at hb
  | succ n ih =>
      intro f h0 h1 b hb
      rw [expansion_steps] at hb
      rcases List.mem_cons.mp hb with h | h
      · subst h
        have hlow : (0 : ℤ) ≤ ⌊f * 2⌋ := Int.floor_nonneg.mpr (by linarith)
        have hup : ⌊f * 2⌋ < 2 := Int.floor_lt.mpr (by push_cast; linarith)
        omega
      · refine ih (f * 2 - (⌊f * 2⌋ : ℝ)) ?_ ?_ b h
        · have := Int.floor_le (f * 2)
          linarith
        · have := Int.lt_floor_add_one (f * 2)
          linarith

lemma expansion_steps_zero : ∀ n : ℕ, expansion_steps 0 n = List.replicate n 0 := by
  intro n
  induction n with
  | zero => rfl
  | succ n ih =>
      rw [expansion_steps]
      norm_num
      rw [List.replicate_succ, ih]

/-- Claim C3: `get_binary_expansion` always returns exactly the
requested number of elements, each of which is 0 or 1, and an
integer-valued input yields an all-zero sequence of that length. -/
theorem get_binary_expansion_wellformed (num : ℝ) (n : ℕ) :
    (get_binary_expansion num n).length = n ∧
    (∀ b ∈ get_binary_expansion num n, b = 0 ∨ b = 1) ∧
    (∀ k : ℤ, get_binary_expansion (k : ℝ) n = List.replicate n 0) := by
  refine ⟨expansion_steps_length n _, ?_, ?_⟩
  · have h0 : (0 : ℝ) ≤ num - (⌊num⌋ : ℝ) := by
      have := Int.floor_le num
      linarith
    have h1 : num - (⌊num⌋ : ℝ) < 1 := by
      have := Int.lt_floor_add_one num
      linarith
    exact expansion_steps_mem n _ h0 h1
  · intro k
    rw [get_binary_expansion, Int.floor_intCast]
    rw [show ((k : ℝ) - ((k : ℤ) : ℝ)) = 0 from sub_self _]
    exact expansion_steps_zero n

/-- Witness for C3 at concrete inputs. -/
theorem get_binary_expansion_wellformed_witness :
    (get_binary_expansion ((5 : ℤ) : ℝ) 3).length = 3 ∧
    get_binary_expansion ((5 : ℤ) : ℝ) 3 = List.replicate 3 0 :=
  ⟨(get_binary_expansion_wellformed ((5 : ℤ) : ℝ) 3).1,
   (get_binary_expansion_wellformed ((5 : ℤ) : ℝ) 3).2.2 5⟩

/-- Claim C4: the runs reported by `find_zero_runs` have positive
length, stay inside the sequence, are pairwise separated (hence
non-overlapping and strictly ascending by start position), their
lengths sum to the number of zero bits, and each run is maximal: the
bit before its start and the bit after its end are 1 or out of
bounds. -/
theorem find_zero_runs_sound (binary : List ℤ) (hb : ∀ b ∈ binary, b = 0 ∨ b = 1) :
    (∀ r ∈ find_zero_runs binary, 1 ≤ r.2 ∧ r.1 + r.2 ≤ binary.length) ∧
    List.Pairwise (fun a b : ℕ × ℕ => a.1 + a.2 < b.1) (find_zero_runs binary) ∧
    ((find_zero_runs binary).map Prod.snd).sum = binary.count 0 ∧
    ∀ r ∈ find_zero_runs binary,
      (r.1 = 0 ∨ binary[r.1 - 1]? = some 1) ∧
      (r.1 + r.2 = binary.length ∨ binary[r.1 + r.2]? = some 1) := by
  obtain ⟨P1, P2, P3, P4, P5⟩ := runsSpec_props binary.length binary le_rfl 0
  simp only [Nat.sub_zero, Nat.zero_add] at P1 P4 P5
  rw [find_zero_runs_eq_runsSpec]
  refine ⟨?_, P2, P3, ?_⟩
  · intro r hr
    have hp := P1 r hr
    exact ⟨hp.2.1, hp.2.2⟩
  · intro r hr
    have hp := P1 r hr
    constructor
    · by_cases h0 : r.1 = 0
      · exact Or.inl h0
      · right
        rcases P4 r hr with h | h
        · exact absurd h h0
        · have hlt : r.1 - 1 < binary.length := by omega
          have he : binary[r.1 - 1]? = some binary[r.1 - 1] :=
            List.getElem?_eq_getElem hlt
          rcases hb _ (List.getElem_mem hlt) with hz | ho
          · rw [hz] at he
            exact absurd he h
          · rw [he, ho]
    · by_cases hlen : r.1 + r.2 = binary.length
      · exact Or.inl hlen
      · right
        rcases P5 r hr with h | h
        · exact absurd h hlen
        · have hlt : r.1 + r.2 < binary.length := by omega
          have he : binary[r.1 + r.2]? = some binary[r.1 + r.2] :=
            List.getElem?_eq_getElem hlt
          rcases hb _ (List.getElem_mem hlt) with hz | ho
          · rw [hz] at he
            exact absurd he h
          · rw [he, ho]

/-- Witness for C4 at a concrete sequence: `[1,0,0,1,0]` has runs
`(1,2)` and `(4,1)`. -/
theorem find_zero_runs_sound_witness :
    (∀ b ∈ [(1 : ℤ), 0, 0, 1, 0], b = 0 ∨ b = 1) ∧
    find_zero_runs [(1 : ℤ), 0, 0, 1, 0] = [(1, 2), (4, 1)] ∧
    List.Pairwise (fun a b : ℕ × ℕ => a.1 + a.2 < b.1)
      (find_zero_runs [(1 : ℤ), 0, 0, 1, 0]) :=
  ⟨by decide, by decide, (find_zero_runs_sound _ (by decide)).2.1⟩

/-! ### Bound analysis and validation (`validate_number`, source lines 64–135) -/

/-- Theoretical bound `factor * math.log2(position + 1)` (source line 83). -/
noncomputable def run_bound (factor : ℝ) (position : ℕ) : ℝ :=
  factor * Real.logb 2 ((position : ℝ) + 1)

/-- Observed/bound ratio (source line 84); the `float('inf')` taken
when the bound is not positive is modelled by `⊤ : EReal`. -/
noncomputable def run_ratio (factor : ℝ) (position run_length : ℕ) : EReal :=
  if 0 < run_bound factor position then
    (((run_length : ℝ) / run_bound factor position : ℝ) : EReal)
  else ⊤

/-- Per-run analysis record (the dicts built at source lines 87–100;
violation entries carry the same four values). -/
structure RunData where
  position : ℕ
  length : ℕ
  bound : ℝ
  ratio : EReal

noncomputable def mkRunData (factor : ℝ) (pr : ℕ × ℕ) : RunData :=
  { position := pr.1
    length := pr.2
    bound := run_bound factor pr.1
    ratio := run_ratio factor pr.1 pr.2 }

/-- Statistics dict (source lines 105–114); the nested
`ratio_distribution` dict is flattened into the three count fields. -/
structure Stats where
  mean_ratio : EReal
  median_ratio : EReal
  std_ratio : ℝ
  dist_low : ℕ
  dist_mid : ℕ
  dist_high : ℕ

/-- Arithmetic mean (`statistics.mean`); division by the count is
modelled as multiplication by its reciprocal (EReal has no division),
matching float semantics also when an infinite ratio occurs. -/
noncomputable def ratios_mean (l : List EReal) : EReal :=
  l.sum * ((((l.length : ℝ))⁻¹ : ℝ) : EReal)

/-- Median (`statistics.median`): midpoint of the sorted sequence,
average of the two middle elements on even count. -/
noncomputable def ratios_median (l : List EReal) : EReal :=
  let s := List.insertionSort (fun a b : EReal => a ≤ b) l
  if l.length % 2 = 1 then s.getD (l.length / 2) 0
  else (s.getD (l.length / 2 - 1) 0 + s.getD (l.length / 2) 0) * ((((2 : ℝ))⁻¹ : ℝ) : EReal)

/-- Sample standard deviation (`statistics.stdev`): `none` models the
`StatisticsError` raised on fewer than two data points.  The value is
computed from the real parts; infinite ratios (possible only for a
non-positive factor) give NaN in the source, here an unspecified
real. -/
noncomputable def ratios_stdev (l : List EReal) : Option ℝ :=
  if l.length < 2 then none
  else
    some (Real.sqrt
      ((((l.map EReal.toReal).map
          (fun x => (x - (l.map EReal.toReal).sum / (l.length : ℝ)) ^ 2)).sum) /
        ((l.length : ℝ) - 1)))

/-- Distribution bucket counts (source lines 109–113): `r < 0.33`,
`0.33 <= r < 0.66`, `r >= 0.66`. -/
noncomputable def ratio_distribution (l : List EReal) : ℕ × ℕ × ℕ :=
  ((l.filter (fun r => r < (((0.33 : ℝ)) : EReal))).length,
   (l.filter (fun r => ((0.33 : ℝ) : EReal) ≤ r ∧ r < ((0.66 : ℝ) : EReal))).length,
   (l.filter (fun r => ((0.66 : ℝ) : EReal) ≤ r)).length)

/-- Statistics block of `validate_number` (source lines 102–116):
built only from the ratios; `none` models the uncaught
`StatisticsError` from `stdev`. -/
noncomputable def compute_stats (ratios : List EReal) : Option Stats :=
  match ratios_stdev ratios with
  | none => none
  | some sd =>
      some { mean_ratio := ratios_mean ratios
             median_ratio := ratios_median ratios
             std_ratio := sd
             dist_low := (ratio_distribution ratios).1
             dist_mid := (ratio_distribution ratios).2.1
             dist_high := (ratio_distribution ratios).2.2 }

/-- Result dict of `validate_number` (source lines 118–130);
`stats = none` models the empty stats dict, `first_bits` is the
source's `binary_prefix`. -/
structure ValidationResult where
  valid : Bool
  violations : List RunData
  max_ratio : EReal
  total_runs : ℕ
  first_bits : List ℤ
  stats : Option Stats
  number_type : String
  factor : ℝ
  factor_name : String
  number : ℝ
  run_data : List RunData

/-- Model of `NumberValidator.validate_number`.  Runs with
`position < 1` are skipped; `ratio > 1` marks a violation; `max_ratio`
starts from 0.  The returned `Option` models the uncaught
`StatisticsError` raised by `stdev` when exactly one run is
analysed. -/
noncomputable def validate_number (number factor : ℝ) (length : ℕ)
    (is_transcendental : Bool) : Option ValidationResult :=
  let binary := get_binary_expansion number length
  let zero_runs := find_zero_runs binary
  let run_data := (zero_runs.filter (fun pr => 1 ≤ pr.1)).map (mkRunData factor)
  let violations := run_data.filter (fun d => (1 : EReal) < d.ratio)
  let max_ratio := run_data.foldl (fun m d => max m d.ratio) 0
  let statsOpt : Option (Option Stats) :=
    if run_data.isEmpty then some none
    else (compute_stats (run_data.map RunData.ratio)).map some
  statsOpt.map fun st =>
    { valid := violations.isEmpty
      violations := violations
      max_ratio := max_ratio
      total_runs := zero_runs.length
      first_bits := binary.take 50
      stats := st
      number_type := if is_transcendental then "transcendental" else "algebraic"
      factor := factor
      factor_name :=
        if is_transcendental then "mu (irrationality measure)" else "d (degree)"
      number := number
      run_data := run_data }

/-! ### Report serialization (`create_report`, source lines 160–195) -/

/-- JSON-like values as produced by `json.dump`.  Numbers are `EReal`:
with the default `allow_nan=True`, `json.dump` emits the non-standard
token `Infinity` for `float('inf')` instead of failing, so a
non-finite number is representable in the encoding. -/
inductive Json where
  | null : Json
  | bool : Bool → Json
  | num : EReal → Json
  | str : String → Json
  | arr : List Json → Json
  | obj : List (String × Json) → Json

/-- Field lookup in a JSON object, as the downstream parser
(`load_data` in the dashboard) reads fields back. -/
def Json.getField : Json → String → Option Json
  | Json.obj fields, k => fields.lookup k
  | _, _ => none

/-- Test-case record as consumed by `create_report` (`case['name']`,
`case['type']`). -/
structure TestCase where
  name : String
  type : String

/-- Serialized violation entry (source lines 95–100): keys `position`,
`run_length`, `bound`, `ratio`.  `convert_to_serializable` turns
arbitrary-precision values into floats, the identity here. -/
noncomputable def violation_json (d : RunData) : Json :=
  Json.obj [("position", Json.num (d.position : EReal)),
            ("run_length", Json.num (d.length : EReal)),
            ("bound", Json.num ((d.bound : ℝ) : EReal)),
            ("ratio", Json.num d.ratio)]

/-- Serialized run-data entry (source lines 87–92): keys `position`,
`length`, `bound`, `ratio`. -/
noncomputable def run_data_json (d : RunData) : Json :=
  Json.obj [("position", Json.num (d.position : EReal)),
            ("length", Json.num (d.length : EReal)),
            ("bound", Json.num ((d.bound : ℝ) : EReal)),
            ("ratio", Json.num d.ratio)]

/-- Serialized statistics dict; the empty dict for `none`. -/
noncomputable def stats_json : Option Stats → Json
  | none => Json.obj []
  | some st =>
      Json.obj [("mean_ratio", Json.num st.mean_ratio),
                ("median_ratio", Json.num st.median_ratio),
                ("std_ratio", Json.num ((st.std_ratio : ℝ) : EReal)),
                ("ratio_distribution",
                  Json.obj [("0-33%", Json.num (st.dist_low : EReal)),
                            ("33-66%", Json.num (st.dist_mid : EReal)),
                            ("66-100%", Json.num (st.dist_high : EReal))])]

/-- Rendering of the binary prefix as a digit string (`''.join`). -/
def bits_string (bits : List ℤ) : String :=
  String.join (bits.map (fun b => toString b))

/-- One report record built by `create_report` (source lines 178–191).
The `float(...)` coercions are the identity under the real-number
model of float values. -/
noncomputable def report_entry (case : TestCase) (result : ValidationResult) : Json :=
  Json.obj [("name", Json.str case.name),
            ("type", Json.str case.type),
            ("number", Json.num ((result.number : ℝ) : EReal)),
            ("factor", Json.num ((result.factor : ℝ) : EReal)),
            ("factor_name", Json.str result.factor_name),
            ("valid", Json.bool result.valid),
            ("max_ratio", Json.num result.max_ratio),
            ("total_runs", Json.num (result.total_runs : EReal)),
            ("violations", Json.arr (result.violations.map violation_json)),
            ("stats", stats_json result.stats),
            ("binary_prefix", Json.str (bits_string result.first_bits)),
            ("run_data", Json.arr (result.run_data.map run_data_json))]

/-- Model of `NumberValidator.create_report`: one record per
`(case, result)` pair, in input order. -/
noncomputable def create_report (results : List (TestCase × ValidationResult)) : List Json :=
  results.map (fun cr => report_entry cr.1 cr.2)

/-! ### Shared helper lemmas -/

/-- Analysed runs of a test case: the zero runs with
`startPosition >= 1` (the others are skipped at source line 80). -/
noncomputable def analyzed_runs (number : ℝ) (len : ℕ) : List (ℕ × ℕ) :=
  (find_zero_runs (get_binary_expansion number len)).filter (fun pr => 1 ≤ pr.1)

lemma run_bound_pos {factor : ℝ} (hf : 0 < factor) {p : ℕ} (hp : 1 ≤ p) :
    0 < run_bound factor p := by
  have h1 : (1 : ℝ) < (p : ℝ) + 1 := by
    have : (1 : ℝ) ≤ (p : ℝ) := by exact_mod_cast hp
    linarith
  exact mul_pos hf (Real.logb_pos (by norm_num) h1)

lemma run_ratio_coe {factor : ℝ} (hf : 0 < factor) {p : ℕ} (l : ℕ) (hp : 1 ≤ p) :
    run_ratio factor p l = (((l : ℝ) / run_bound factor p : ℝ) : EReal) := by
  rw [run_ratio, if_pos (run_bound_pos hf hp)]

lemma foldl_max_le (l : List EReal) : ∀ a : EReal,
    a ≤ l.foldl max a ∧ ∀ x ∈ l, x ≤ l.foldl max a := by
  induction l with
  | nil => intro a; exact ⟨le_rfl, by simp⟩
  | cons b t ih =>
      intro a
      simp only [List.foldl_cons]
      refine ⟨le_trans (le_max_left a b) (ih (max a b)).1, ?_⟩
      intro x hx
      rcases List.mem_cons.mp hx with h | h
      · subst h
        exact le_trans (le_max_right a x) (ih (max a x)).1
      · exact (ih (max a b)).2 x h

lemma foldl_max_mem (l : List EReal) : ∀ a : EReal,
    l.foldl max a = a ∨ l.foldl max a ∈ l := by
  induction l with
  | nil => intro a; exact Or.inl rfl
  | cons b t ih =>
      intro a
      simp only [List.foldl_cons]
      rcases ih (max a b) with h | h
      · rcases max_choice a b with hm | hm
        · exact Or.inl (by rw [h, hm])
        · exact Or.inr (by rw [h, hm]; exact List.mem_cons_self b t)
      · exact Or.inr (List.mem_cons_of_mem b h)

/-! ### Claim theorems about the analyzer -/

/-- Claim C10: for a strictly positive factor, the bound
`factor * log2(position + 1)` of any run with `position >= 1` is
strictly positive, so the infinite-ratio fallback is unreachable and
every ratio built by the pipeline is finite. -/
theorem positive_factor_ratios_finite (factor : ℝ) (hf : 0 < factor) :
    (∀ position : ℕ, 1 ≤ position → 0 < run_bound factor position) ∧
    (∀ position run_length : ℕ, 1 ≤ position →
      run_ratio factor position run_length =
        (((run_length : ℝ) / run_bound factor position : ℝ) : EReal) ∧
      run_ratio factor position run_length ≠ ⊤ ∧
      run_ratio factor position run_length ≠ ⊥) ∧
    (∀ runs : List (ℕ × ℕ),
      ∀ d ∈ (runs.filter (fun pr => 1 ≤ pr.1)).map (mkRunData factor),
        0 < d.bound ∧ d.ratio ≠ ⊤ ∧ d.ratio ≠ ⊥) := by
  refine ⟨fun p hp => run_bound_pos hf hp, ?_, ?_⟩
  · intro p l hp
    rw [run_ratio_coe hf l hp]
    exact ⟨rfl, EReal.coe_ne_top _, EReal.coe_ne_bot _⟩
  · intro runs d hd
    obtain ⟨pr, hpr, hmk⟩ := List.mem_map.mp hd
    have hp : 1 ≤ pr.1 := by
      have := (List.mem_filter.mp hpr).2
      simpa using this
    subst hmk
    refine ⟨run_bound_pos hf hp, ?_, ?_⟩
    · rw [show (mkRunData factor pr).ratio = run_ratio factor pr.1 pr.2 from rfl,
        run_ratio_coe hf pr.2 hp]
      exact EReal.coe_ne_top _
    · rw [show (mkRunData factor pr).ratio = run_ratio factor pr.1 pr.2 from rfl,
        run_ratio_coe hf pr.2 hp]
      exact EReal.coe_ne_bot _

/-- Witness for C10 at `factor = 1`, `position = 1`, `run_length = 3`. -/
theorem positive_factor_ratios_finite_witness :
    (0 : ℝ) < 1 ∧ 0 < run_bound 1 1 ∧ run_ratio 1 1 3 ≠ ⊤ :=
  ⟨by norm_num,
   (positive_factor_ratios_finite 1 (by norm_num)).1 1 le_rfl,
   ((positive_factor_ratios_finite 1 (by norm_num)).2.1 1 3 le_rfl).2.1⟩

/-- Claim C9: serializing a result into its report record and reading
the fields back yields exactly the original name, type, valid flag,
total-run count, and number of violations. -/
theorem report_entry_roundtrip (case : TestCase) (result : ValidationResult) :
    Json.getField (report_entry case result) "name" = some (Json.str case.name) ∧
    Json.getField (report_entry case result) "type" = some (Json.str case.type) ∧
    Json.getField (report_entry case result) "valid" = some (Json.bool result.valid) ∧
    Json.getField (report_entry case result) "total_runs" =
      some (Json.num (result.total_runs : EReal)) ∧
    Json.getField (report_entry case result) "violations" =
      some (Json.arr (result.violations.map violation_json)) ∧
    (result.violations.map violation_json).length = result.violations.length :=
  ⟨rfl, rfl, rfl, rfl, rfl, List.length_map _ _⟩

/-- Claim C1: a returned result is valid exactly when no analysed run
has ratio `length / (factor * log2(position+1))` strictly above 1
(ratio exactly 1 is a non-violation), and `max_ratio` is the maximum
of the analysed ratios, or 0 when no run has `startPosition >= 1`. -/
theorem validate_number_valid_iff (number factor : ℝ) (len : ℕ) (it : Bool)
    (r : ValidationResult) (hf : 0 < factor)
    (h : validate_number number factor len it = some r) :
    (r.valid = true ↔
      ∀ pr ∈ analyzed_runs number len,
        (pr.2 : ℝ) / (factor * Real.logb 2 ((pr.1 : ℝ) + 1)) ≤ 1) ∧
    (analyzed_runs number len = [] → r.max_ratio = 0) ∧
    (analyzed_runs number len ≠ [] →
      r.max_ratio ∈ (analyzed_runs number len).map
          (fun pr => ((((pr.2 : ℝ) / (factor * Real.logb 2 ((pr.1 : ℝ) + 1))) : ℝ) : EReal)) ∧
      ∀ x ∈ (analyzed_runs number len).map
          (fun pr => ((((pr.2 : ℝ) / (factor * Real.logb 2 ((pr.1 : ℝ) + 1))) : ℝ) : EReal)),
        x ≤ r.max_ratio) := by
  simp only [validate_number] at h
  obtain ⟨st, hst, hr⟩ := Option.map_eq_some'.mp h
  have hval : r.valid = (((analyzed_runs number len).map (mkRunData factor)).filter
      (fun d => (1 : EReal) < d.ratio)).isEmpty := by rw [← hr]; rfl
  have hmax : r.max_ratio = ((analyzed_runs number len).map (mkRunData factor)).foldl
      (fun m d => max m d.ratio) 0 := by rw [← hr]; rfl
  have hA : ∀ pr ∈ analyzed_runs number len, 1 ≤ pr.1 := by
    intro pr hpr
    have := (List.mem_filter.mp hpr).2
    simpa using this
  have hratio_map : ((analyzed_runs number len).map (mkRunData factor)).map RunData.ratio
      = (analyzed_runs number len).map
          (fun pr => ((((pr.2 : ℝ) / (factor * Real.logb 2 ((pr.1 : ℝ) + 1))) : ℝ) : EReal)) := by
    rw [List.map_map]
    refine List.map_congr_left ?_
    intro pr hpr
    show (mkRunData factor pr).ratio = _
    rw [show (mkRunData factor pr).ratio = run_ratio factor pr.1 pr.2 from rfl,
      run_ratio_coe hf pr.2 (hA pr hpr)]
    rfl
  refine ⟨?_, ?_, ?_⟩
  · rw [hval, List.isEmpty_iff, List.filter_eq_nil_iff]
    constructor
    · intro hall pr hpr
      have hd := hall (mkRunData factor pr) (List.mem_map_of_mem _ hpr)
      have hd' : ¬((1 : EReal) < run_ratio factor pr.1 pr.2) := by simpa using hd
      rw [run_ratio_coe hf pr.2 (hA pr hpr), ← EReal.coe_one] at hd'
      have := not_lt.mp hd'
      rwa [EReal.coe_le_coe_iff] at this
    · intro hall d hd
      obtain ⟨pr, hpr, hmk⟩ := List.mem_map.mp hd
      subst hmk
      simp only [decide_eq_true_eq]
      rw [show (mkRunData factor pr).ratio = run_ratio factor pr.1 pr.2 from rfl,
        run_ratio_coe hf pr.2 (hA pr hpr), ← EReal.coe_one]
      rw [not_lt, EReal.coe_le_coe_iff]
      exact hall pr hpr
  · intro hA0
    rw [hmax, hA0]
    rfl
  · intro hA0
    have h1 := List.foldl_map (RunData.ratio)
      (fun m x : EReal => max m x)
      ((analyzed_runs number len).map (mkRunData factor)) (0 : EReal)
    rw [hmax, ← h1, hratio_map]
    set RL := (analyzed_runs number len).map
        (fun pr => ((((pr.2 : ℝ) / (factor * Real.logb 2 ((pr.1 : ℝ) + 1))) : ℝ) : EReal))
      with hRL
    have hnn : ∀ x ∈ RL, 0 ≤ x := by
      intro x hx
      rw [hRL] at hx
      obtain ⟨pr, hpr, hx⟩ := List.mem_map.mp hx
      subst hx
      refine EReal.coe_nonneg.mpr ?_
      exact div_nonneg (Nat.cast_nonneg _) (le_of_lt (run_bound_pos hf (hA pr hpr)))
    have hle := foldl_max_le RL 0
    rcases foldl_max_mem RL 0 with hm | hm
    · have hne : RL ≠ [] := by
        intro hcon
        rw [hRL] at hcon
        exact hA0 (List.map_eq_nil_iff.mp hcon)
      obtain ⟨y, hy⟩ := List.exists_mem_of_ne_nil RL hne
      have hy0 : y = 0 := le_antisymm (hm ▸ hle.2 y hy) (hnn y hy)
      refine ⟨?_, ?_⟩
      · rw [hm, ← hy0]
        exact hy
      · intro x hx
        rw [hm]
        exact hm ▸ hle.2 x hx
    · exact ⟨hm, fun x hx => hle.2 x hx⟩

/-- Claim C5: a zero run starting at position 0 contributes no run
analysis (and hence no violation, ratio, or max-ratio input) but is
still counted in `total_runs`. -/
theorem position_zero_runs_excluded (number factor : ℝ) (len : ℕ) (it : Bool)
    (r : ValidationResult) (h : validate_number number factor len it = some r) :
    r.total_runs = (find_zero_runs (get_binary_expansion number len)).length ∧
    r.run_data = (analyzed_runs number len).map (mkRunData factor) ∧
    (∀ d ∈ r.run_data, 1 ≤ d.position) ∧
    (∀ d ∈ r.violations, 1 ≤ d.position) := by
  simp only [validate_number] at h
  obtain ⟨st, hst, hr⟩ := Option.map_eq_some'.mp h
  have htot : r.total_runs = (find_zero_runs (get_binary_expansion number len)).length := by
    rw [← hr]
  have hrd : r.run_data = (analyzed_runs number len).map (mkRunData factor) := by
    rw [← hr]; rfl
  have hviol : r.violations = ((analyzed_runs number len).map (mkRunData factor)).filter
      (fun d => (1 : EReal) < d.ratio) := by
    rw [← hr]; rfl
  have hA : ∀ pr ∈ analyzed_runs number len, 1 ≤ pr.1 := by
    intro pr hpr
    have := (List.mem_filter.mp hpr).2
    simpa using this
  have hpos : ∀ d ∈ (analyzed_runs number len).map (mkRunData factor), 1 ≤ d.position := by
    intro d hd
    obtain ⟨pr, hpr, hmk⟩ := List.mem_map.mp hd
    subst hmk
    exact hA pr hpr
  refine ⟨htot, hrd, ?_, ?_⟩
  · rw [hrd]
    exact hpos
  · intro d hd
    rw [hviol] at hd
    exact hpos d (List.mem_of_mem_filter hd)

/-! ### Concrete evaluations used by witnesses and failing inputs -/

lemma expansion_steps_succ (f : ℝ) (n : ℕ) :
    expansion_steps f (n + 1) = ⌊f * 2⌋ :: expansion_steps (f * 2 - (⌊f * 2⌋ : ℝ)) n := rfl

lemma expansion_three : get_binary_expansion (3 : ℝ) 5 = [0, 0, 0, 0, 0] := by
  rw [get_binary_expansion, show ((3 : ℝ) - (⌊(3 : ℝ)⌋ : ℝ)) = 0 by norm_num,
    expansion_steps_zero]
  rfl

lemma expansion_four : get_binary_expansion (4 : ℝ) 6 = [0, 0, 0, 0, 0, 0] := by
  rw [get_binary_expansion, show ((4 : ℝ) - (⌊(4 : ℝ)⌋ : ℝ)) = 0 by norm_num,
    expansion_steps_zero]
  rfl

lemma expansion_half : get_binary_expansion (1 / 2 : ℝ) 8 = [1, 0, 0, 0, 0, 0, 0, 0] := by
  rw [get_binary_expansion, show ((1 / 2 : ℝ) - (⌊(1 / 2 : ℝ)⌋ : ℝ)) = 1 / 2 by norm_num]
  rw [expansion_steps_succ, show ((1 / 2 : ℝ) * 2) = 1 by ring,
    show (⌊(1 : ℝ)⌋ : ℤ) = 1 by norm_num,
    show ((1 : ℝ) - ((1 : ℤ) : ℝ)) = 0 by norm_num]
  rw [expansion_steps_zero]
  rfl

lemma expansion_fiveeighths : get_binary_expansion (5 / 8 : ℝ) 4 = [1, 0, 1, 0] := by
  rw [get_binary_expansion, show ((5 / 8 : ℝ) - (⌊(5 / 8 : ℝ)⌋ : ℝ)) = 5 / 8 by norm_num]
  rw [expansion_steps_succ, show ((5 / 8 : ℝ) * 2) = 5 / 4 by ring,
    show (⌊(5 / 4 : ℝ)⌋ : ℤ) = 1 by norm_num,
    show ((5 / 4 : ℝ) - ((1 : ℤ) : ℝ)) = 1 / 4 by norm_num]
  rw [expansion_steps_succ, show ((1 / 4 : ℝ) * 2) = 1 / 2 by ring,
    show (⌊(1 / 2 : ℝ)⌋ : ℤ) = 0 by norm_num,
    show ((1 / 2 : ℝ) - ((0 : ℤ) : ℝ)) = 1 / 2 by norm_num]
  rw [expansion_steps_succ, show ((1 / 2 : ℝ) * 2) = 1 by ring,
    show (⌊(1 : ℝ)⌋ : ℤ) = 1 by norm_num,
    show ((1 : ℝ) - ((1 : ℤ) : ℝ)) = 0 by norm_num]
  rw [expansion_steps_succ, show ((0 : ℝ) * 2) = 0 by ring,
    show (⌊(0 : ℝ)⌋ : ℤ) = 0 by norm_num]
  rfl

/-- Result record for the integer scenario `validate_number 3 2 5`. -/
noncomputable def val_three : ValidationResult :=
  { valid := true
    violations := []
    max_ratio := 0
    total_runs := 1
    first_bits := [0, 0, 0, 0, 0]
    stats := none
    number_type := "algebraic"
    factor := 2
    factor_name := "d (degree)"
    number := 3
    run_data := [] }

lemma validate_number_three : validate_number (3 : ℝ) 2 5 false = some val_three := by
  simp only [validate_number, expansion_three]
  rw [show find_zero_runs [(0 : ℤ), 0, 0, 0, 0] = [(0, 5)] by decide]
  simp [val_three]

/-- Result record for the integer scenario `validate_number 4 2 6`. -/
noncomputable def val_four : ValidationResult :=
  { valid := true
    violations := []
    max_ratio := 0
    total_runs := 1
    first_bits := [0, 0, 0, 0, 0, 0]
    stats := none
    number_type := "algebraic"
    factor := 2
    factor_name := "d (degree)"
    number := 4
    run_data := [] }

lemma validate_number_four : validate_number (4 : ℝ) 2 6 false = some val_four := by
  simp only [validate_number, expansion_four]
  rw [show find_zero_runs [(0 : ℤ), 0, 0, 0, 0, 0] = [(0, 6)] by decide]
  simp [val_four]

/-- Witness for C1: integer input 4, factor 2, length 6 — no analysed
runs, result valid with `max_ratio = 0`. -/
theorem validate_number_valid_iff_witness :
    (0 : ℝ) < 2 ∧ validate_number (4 : ℝ) 2 6 false = some val_four ∧
    (val_four.valid = true ↔
      ∀ pr ∈ analyzed_runs (4 : ℝ) 6,
        (pr.2 : ℝ) / (2 * Real.logb 2 ((pr.1 : ℝ) + 1)) ≤ 1) ∧
    (analyzed_runs (4 : ℝ) 6 = [] → val_four.max_ratio = 0) :=
  ⟨by norm_num, validate_number_four,
   (validate_number_valid_iff 4 2 6 false val_four (by norm_num) validate_number_four).1,
   (validate_number_valid_iff 4 2 6 false val_four (by norm_num) validate_number_four).2.1⟩

/-- Witness for C5: the spec's scenario — integer input 3 at length 5
gives bits `[0,0,0,0,0]`, the single run `(0,5)`, `total_runs = 1` and
no run analysis. -/
theorem position_zero_runs_excluded_witness :
    validate_number (3 : ℝ) 2 5 false = some val_three ∧
    get_binary_expansion (3 : ℝ) 5 = [0, 0, 0, 0, 0] ∧
    find_zero_runs [(0 : ℤ), 0, 0, 0, 0] = [(0, 5)] ∧
    val_three.total_runs = 1 ∧
    val_three.run_data = [] ∧
    val_three.total_runs = (find_zero_runs (get_binary_expansion (3 : ℝ) 5)).length ∧
    (∀ d ∈ val_three.run_data, 1 ≤ d.position) :=
  ⟨validate_number_three, expansion_three, by decide, rfl, rfl,
   (position_zero_runs_excluded 3 2 5 false val_three validate_number_three).1,
   (position_zero_runs_excluded 3 2 5 false val_three validate_number_three).2.2.1⟩

/-- Claim C2 (code bug): with exactly one analysed run the source
reaches `statistics.stdev` with a single data point, which raises
`StatisticsError`; validating `0.5` at length 8 (bits `10000000`, one
run `(1,7)`) therefore fails instead of returning a result with empty
statistics. -/
theorem validate_number_single_run_raises :
    validate_number (1 / 2 : ℝ) 2 8 false = none := by
  simp only [validate_number, expansion_half]
  rw [show find_zero_runs [(1 : ℤ), 0, 0, 0, 0, 0, 0, 0] = [(1, 7)] by decide]
  simp [compute_stats, ratios_stdev]

/-! ### Distribution buckets (claim C6) -/

lemma ratio_distribution_sum (l : List EReal) (hl : ∀ x ∈ l, 0 ≤ x ∧ x ≠ ⊤) :
    (ratio_distribution l).1 + (ratio_distribution l).2.1 + (ratio_distribution l).2.2 =
      (l.filter (fun x => x ≠ ⊤)).length := by
  induction l with
  | nil => simp [ratio_distribution]
  | cons a t ih =>
      have ha := hl a (List.mem_cons_self a t)
      have ih' := ih (fun x hx => hl x (List.mem_cons_of_mem a hx))
      have h34 : ((0.33 : ℝ) : EReal) ≤ ((0.66 : ℝ) : EReal) :=
        EReal.coe_le_coe_iff.mpr (by norm_num)
      simp only [ratio_distribution, List.filter_cons] at ih' ⊢
      rcases lt_or_le a ((0.33 : ℝ) : EReal) with h1 | h1
      · have h2 : ¬(((0.33 : ℝ) : EReal) ≤ a ∧ a < ((0.66 : ℝ) : EReal)) :=
          fun hc => absurd hc.1 (not_le.mpr h1)
        have h3 : ¬(((0.66 : ℝ) : EReal) ≤ a) :=
          fun hc => absurd (le_trans h34 hc) (not_le.mpr h1)
        simp [h1, h2, h3, ha.2] at ih' ⊢
        omega
      · rcases lt_or_le a ((0.66 : ℝ) : EReal) with h2 | h2
        · have hmid : ((0.33 : ℝ) : EReal) ≤ a ∧ a < ((0.66 : ℝ) : EReal) := ⟨h1, h2⟩
          have hlow : ¬(a < ((0.33 : ℝ) : EReal)) := not_lt.mpr h1
          have hhigh : ¬(((0.66 : ℝ) : EReal) ≤ a) := not_le.mpr h2
          simp [hlow, hmid, hhigh, ha.2] at ih' ⊢
          omega
        · have hlow : ¬(a < ((0.33 : ℝ) : EReal)) := not_lt.mpr h1
          have hmid : ¬(((0.33 : ℝ) : EReal) ≤ a ∧ a < ((0.66 : ℝ) : EReal)) :=
            fun hc => absurd hc.2 (not_lt.mpr h2)
          simp [hlow, hmid, h2, ha.2] at ih' ⊢
          omega

lemma bucket_trichotomy (x : EReal) (hx : 0 ≤ x) :
    ((0 ≤ x ∧ x < ((0.33 : ℝ) : EReal)) ∧
      ¬(((0.33 : ℝ) : EReal) ≤ x ∧ x < ((0.66 : ℝ) : EReal)) ∧
      ¬(((0.66 : ℝ) : EReal) ≤ x)) ∨
    (¬(x < ((0.33 : ℝ) : EReal)) ∧
      (((0.33 : ℝ) : EReal) ≤ x ∧ x < ((0.66 : ℝ) : EReal)) ∧
      ¬(((0.66 : ℝ) : EReal) ≤ x)) ∨
    (¬(x < ((0.33 : ℝ) : EReal)) ∧
      ¬(x < ((0.66 : ℝ) : EReal)) ∧ ((0.66 : ℝ) : EReal) ≤ x) := by
  have h34 : ((0.33 : ℝ) : EReal) ≤ ((0.66 : ℝ) : EReal) :=
    EReal.coe_le_coe_iff.mpr (by norm_num)
  rcases lt_or_le x ((0.33 : ℝ) : EReal) with h1 | h1
  · exact Or.inl ⟨⟨hx, h1⟩, fun hc => absurd hc.1 (not_le.mpr h1),
      fun hc => absurd (le_trans h34 hc) (not_le.mpr h1)⟩
  · rcases lt_or_le x ((0.66 : ℝ) : EReal) with h2 | h2
    · exact Or.inr (Or.inl ⟨not_lt.mpr h1, ⟨h1, h2⟩, not_le.mpr h2⟩)
    · exact Or.inr (Or.inr ⟨not_lt.mpr h1, not_lt.mpr h2, h2⟩)

lemma ratio_distribution_c33 :
    ratio_distribution [((0.33 : ℝ) : EReal)] = (0, 1, 0) := by
  have h1 : ¬(((0.33 : ℝ) : EReal) < ((0.33 : ℝ) : EReal)) := lt_irrefl _
  have h3 : ((0.33 : ℝ) : EReal) < ((0.66 : ℝ) : EReal) :=
    EReal.coe_lt_coe_iff.mpr (by norm_num)
  have h2 : ((0.33 : ℝ) : EReal) ≤ ((0.33 : ℝ) : EReal) ∧
      ((0.33 : ℝ) : EReal) < ((0.66 : ℝ) : EReal) := ⟨le_refl _, h3⟩
  have h4 : ¬(((0.66 : ℝ) : EReal) ≤ ((0.33 : ℝ) : EReal)) := not_le.mpr h3
  simp [ratio_distribution, h1, h2, h4]

lemma ratio_distribution_c66 :
    ratio_distribution [((0.66 : ℝ) : EReal)] = (0, 0, 1) := by
  have h3 : ((0.33 : ℝ) : EReal) < ((0.66 : ℝ) : EReal) :=
    EReal.coe_lt_coe_iff.mpr (by norm_num)
  have h1 : ¬(((0.66 : ℝ) : EReal) < ((0.33 : ℝ) : EReal)) := not_lt.mpr (le_of_lt h3)
  have h2 : ¬(((0.33 : ℝ) : EReal) ≤ ((0.66 : ℝ) : EReal) ∧
      ((0.66 : ℝ) : EReal) < ((0.66 : ℝ) : EReal)) := fun hc => absurd hc.2 (lt_irrefl _)
  have h4 : ((0.66 : ℝ) : EReal) ≤ ((0.66 : ℝ) : EReal) := le_refl _
  simp [ratio_distribution, h1, h2, h4]

/-- Claim C6: the three distribution buckets are the half-open
intervals `[0, 0.33)`, `[0.33, 0.66)`, `[0.66, ∞)` — lower boundary
inclusive, so exactly 0.33 falls in the middle bucket and exactly 0.66
in the high bucket; they are pairwise disjoint and exhaustive over the
nonnegative finite ratios, and the counts sum to the number of ratios
with a finite value. -/
theorem ratio_distribution_partition :
    (∀ l : List EReal, (∀ x ∈ l, 0 ≤ x ∧ x ≠ ⊤) →
      (ratio_distribution l).1 + (ratio_distribution l).2.1 + (ratio_distribution l).2.2 =
        (l.filter (fun x => x ≠ ⊤)).length ∧
      ∀ x ∈ l,
        ((0 ≤ x ∧ x < ((0.33 : ℝ) : EReal)) ∧
          ¬(((0.33 : ℝ) : EReal) ≤ x ∧ x < ((0.66 : ℝ) : EReal)) ∧
          ¬(((0.66 : ℝ) : EReal) ≤ x)) ∨
        (¬(x < ((0.33 : ℝ) : EReal)) ∧
          (((0.33 : ℝ) : EReal) ≤ x ∧ x < ((0.66 : ℝ) : EReal)) ∧
          ¬(((0.66 : ℝ) : EReal) ≤ x)) ∨
        (¬(x < ((0.33 : ℝ) : EReal)) ∧
          ¬(x < ((0.66 : ℝ) : EReal)) ∧ ((0.66 : ℝ) : EReal) ≤ x)) ∧
    ratio_distribution [((0.33 : ℝ) : EReal)] = (0, 1, 0) ∧
    ratio_distribution [((0.66 : ℝ) : EReal)] = (0, 0, 1) := by
  refine ⟨?_, ratio_distribution_c33, ratio_distribution_c66⟩
  intro l hl
  exact ⟨ratio_distribution_sum l hl, fun x hx => bucket_trichotomy x (hl x hx).1⟩

/-- Witness for C6 at the one-element ratio list `[0.2]`. -/
theorem ratio_distribution_partition_witness :
    (∀ x ∈ [((0.2 : ℝ) : EReal)], 0 ≤ x ∧ x ≠ ⊤) ∧
    (ratio_distribution [((0.2 : ℝ) : EReal)]).1 +
        (ratio_distribution [((0.2 : ℝ) : EReal)]).2.1 +
        (ratio_distribution [((0.2 : ℝ) : EReal)]).2.2 =
      ([((0.2 : ℝ) : EReal)].filter (fun x => x ≠ ⊤)).length := by
  have hl : ∀ x ∈ [((0.2 : ℝ) : EReal)], 0 ≤ x ∧ x ≠ ⊤ := by
    intro x hx
    rw [List.mem_singleton] at hx
    subst hx
    exact ⟨EReal.coe_nonneg.mpr (by norm_num), EReal.coe_ne_top _⟩
  exact ⟨hl, (ratio_distribution_partition.1 [((0.2 : ℝ) : EReal)] hl).1⟩

/-! ### Statistics aggregation (claim C7) -/

lemma ratios_stdev_of_two_le {l : List EReal} (h2 : 2 ≤ l.length) :
    ∃ sd : ℝ, ratios_stdev l = some sd := by
  rw [ratios_stdev, if_neg (by omega)]
  exact ⟨_, rfl⟩

lemma compute_stats_of_two_le {l : List EReal} (h2 : 2 ≤ l.length) :
    (compute_stats l).map Stats.mean_ratio = some (ratios_mean l) ∧
    (compute_stats l).map Stats.median_ratio = some (ratios_median l) ∧
    (compute_stats l).map (fun st => (st.dist_low, st.dist_mid, st.dist_high)) =
      some (ratio_distribution l) := by
  obtain ⟨sd, hsd⟩ := ratios_stdev_of_two_le h2
  rw [compute_stats, hsd]
  exact ⟨rfl, rfl, rfl⟩

lemma ratios_mean_scenario :
    ratios_mean [((0.2 : ℝ) : EReal), ((0.5 : ℝ) : EReal)] = ((0.35 : ℝ) : EReal) := by
  rw [ratios_mean]
  simp only [List.sum_cons, List.sum_nil, add_zero, List.length_cons, List.length_nil]
  rw [← EReal.coe_add, ← EReal.coe_mul]
  norm_num

lemma insertionSort_scenario :
    List.insertionSort (fun a b : EReal => a ≤ b) [((0.2 : ℝ) : EReal), ((0.5 : ℝ) : EReal)] =
      [((0.2 : ℝ) : EReal), ((0.5 : ℝ) : EReal)] := by
  have hle : ((0.2 : ℝ) : EReal) ≤ ((0.5 : ℝ) : EReal) :=
    EReal.coe_le_coe_iff.mpr (by norm_num)
  simp [List.insertionSort, List.orderedInsert, hle]

lemma ratios_median_scenario :
    ratios_median [((0.2 : ℝ) : EReal), ((0.5 : ℝ) : EReal)] = ((0.35 : ℝ) : EReal) := by
  rw [ratios_median]
  simp only [insertionSort_scenario, List.length_cons, List.length_nil]
  norm_num
  rw [← EReal.coe_add, ← EReal.coe_mul]
  norm_num

lemma ratio_distribution_scenario :
    ratio_distribution [((0.2 : ℝ) : EReal), ((0.5 : ℝ) : EReal)] = (1, 1, 0) := by
  have ha1 : ((0.2 : ℝ) : EReal) < ((0.33 : ℝ) : EReal) :=
    EReal.coe_lt_coe_iff.mpr (by norm_num)
  have ha2 : ¬(((0.33 : ℝ) : EReal) ≤ ((0.2 : ℝ) : EReal)) := not_le.mpr ha1
  have ha3 : ¬(((0.66 : ℝ) : EReal) ≤ ((0.2 : ℝ) : EReal)) := by
    intro hc
    rw [EReal.coe_le_coe_iff] at hc
    norm_num at hc
  have hb1 : ¬(((0.5 : ℝ) : EReal) < ((0.33 : ℝ) : EReal)) := by
    rw [not_lt, EReal.coe_le_coe_iff]
    norm_num
  have hb2a : ((0.33 : ℝ) : EReal) ≤ ((0.5 : ℝ) : EReal) :=
    EReal.coe_le_coe_iff.mpr (by norm_num)
  have hb2b : ((0.5 : ℝ) : EReal) < ((0.66 : ℝ) : EReal) :=
    EReal.coe_lt_coe_iff.mpr (by norm_num)
  have hb3 : ¬(((0.66 : ℝ) : EReal) ≤ ((0.5 : ℝ) : EReal)) := by
    intro hc
    rw [EReal.coe_le_coe_iff] at hc
    norm_num at hc
  simp [ratio_distribution, ha1, ha2, ha3, hb1, hb2a, hb2b, hb3]

/-- Claim C7: with at least two ratios the statistics are present and
report the aggregator's arithmetic mean and sorted-midpoint median
(average of the two middle elements on even count); in particular the
ratios `[0.2, 0.5]` give mean 0.35, median 0.35 and distribution
`low = 1, medium = 1, high = 0`. -/
theorem compute_stats_mean_median :
    (∀ l : List EReal, 2 ≤ l.length →
      (compute_stats l).map Stats.mean_ratio = some (ratios_mean l) ∧
      (compute_stats l).map Stats.median_ratio = some (ratios_median l)) ∧
    (compute_stats [((0.2 : ℝ) : EReal), ((0.5 : ℝ) : EReal)]).map
        (fun st => (st.mean_ratio, st.median_ratio, st.dist_low, st.dist_mid, st.dist_high)) =
      some (((0.35 : ℝ) : EReal), ((0.35 : ℝ) : EReal), 1, 1, 0) := by
  constructor
  · intro l h2
    exact ⟨(compute_stats_of_two_le h2).1, (compute_stats_of_two_le h2).2.1⟩
  · obtain ⟨sd, hsd⟩ := ratios_stdev_of_two_le
      (l := [((0.2 : ℝ) : EReal), ((0.5 : ℝ) : EReal)]) (by norm_num)
    rw [compute_stats, hsd]
    simp only [Option.map_some']
    rw [ratios_mean_scenario, ratios_median_scenario, ratio_distribution_scenario]

/-- Witness for C7 at the scenario ratio list. -/
theorem compute_stats_mean_median_witness :
    2 ≤ ([((0.2 : ℝ) : EReal), ((0.5 : ℝ) : EReal)] : List EReal).length ∧
    (compute_stats [((0.2 : ℝ) : EReal), ((0.5 : ℝ) : EReal)]).map Stats.mean_ratio =
      some (ratios_mean [((0.2 : ℝ) : EReal), ((0.5 : ℝ) : EReal)]) :=
  ⟨by norm_num, (compute_stats_mean_median.1 _ (by norm_num)).1⟩

/-! ### Non-finite ratio serialization (claim C8) -/

lemma run_ratio_factor_zero (p l : ℕ) : run_ratio 0 p l = ⊤ := by
  rw [run_ratio]
  have hb : run_bound 0 p = 0 := by rw [run_bound, zero_mul]
  rw [hb]
  simp

lemma compute_stats_isSome_of_two {l : List EReal} (h2 : 2 ≤ l.length) :
    ∃ st, compute_stats l = some st := by
  obtain ⟨sd, hsd⟩ := ratios_stdev_of_two_le h2
  rw [compute_stats, hsd]
  exact ⟨_, rfl⟩

/-- Test case label used in the non-finite serialization scenario. -/
def inf_case : TestCase := ⟨"x", "algebraic"⟩

/-- Claim C8 (code bug): with `factor = 0` the bound is 0 and both
analysed runs of `0.625` at length 4 get ratio `float('inf')`; the
serialized report record keeps the non-finite value — with the default
`allow_nan=True`, `json.dump` emits the non-standard token `Infinity` —
instead of converting it to a finite sentinel or explicit marker. -/
theorem report_keeps_nonfinite_ratio :
    (validate_number (5 / 8 : ℝ) 0 4 false).map
        (fun r => (Json.getField (report_entry inf_case r) "max_ratio",
                   r.violations.map RunData.ratio)) =
      some (some (Json.num ⊤), [⊤, ⊤]) := by
  have hlt : (1 : EReal) < ⊤ := by
    rw [← EReal.coe_one]
    exact EReal.coe_lt_top 1
  have htop : ∀ x : EReal, max x ⊤ = ⊤ := fun x => max_eq_right le_top
  obtain ⟨st, hst⟩ := compute_stats_isSome_of_two (l := [(⊤ : EReal), ⊤]) (by norm_num)
  simp only [validate_number, expansion_fiveeighths]
  rw [show find_zero_runs [(1 : ℤ), 0, 1, 0] = [(1, 1), (3, 1)] by decide]
  simp [mkRunData, run_ratio_factor_zero, hlt, htop, hst, report_entry, Json.getField,
    stats_json]
  rfl

end ZeroRunBound
